import Mathlib

/-!
Shallow embedding of the simple genetic algorithm `pagmo::sga`
(`include/pagmo/algorithms/sga.hpp`) and proofs about its operators:
selection, crossover, mutation, validation and elitist reinsertion.

Conventions of the embedding:
* `double` values carried by decision vectors are modelled over `ℚ`;
  a fitness entry is `Option ℚ`, with `none` standing for IEEE NaN
  (only the comparator ever distinguishes NaN).
* the mersenne-twister engine `m_e` is modelled by explicit oracles:
  a stream `Nat → ℚ` for `uniform_real_distribution(0,1)` draws and a
  stream `Nat → Nat` for raw integer draws; a draw of
  `uniform_int_distribution(lo, hi)` consumes one raw value `r` and
  yields `lo + r % (hi - lo + 1)`, which ranges exactly over `[lo, hi]`.
* `std::vector` reads are modelled with `List.getD`; every index the
  engine produces is in range, so the defaults are never semantically
  relevant.
-/

namespace SgaSpec

/-- A `double` as stored in a fitness vector: `some q` is a finite value,
`none` is IEEE NaN. -/
abbrev FV : Type := Option ℚ

/-- Modelled from the spec: the comparator `detail::less_than_f` of
`detail/custom_comparisons.hpp` (that header is not under `src/`): a NaN
compares as greater than any real, and two NaNs compare not-less. -/
def less_than_f : FV → FV → Bool
  | some a, some b => decide (a < b)
  | some _, none => true
  | none, _ => false

/-- Interpretation of a fitness value in the linear order `WithTop ℚ`,
sending NaN to `⊤`. -/
def toW : FV → WithTop ℚ
  | some a => (a : WithTop ℚ)
  | none => ⊤

/-- The sort key `F[a][0]` used by truncated selection and by the
reinsertion step. -/
def fkey (F : List (List FV)) (a : Nat) : FV := (F.getD a []).getD 0 none

/-- `a` may precede `b` in the result of
`std::sort(..., less_than_f(F[a][0], F[b][0]))`: the comparator does not
order `b` strictly before `a`. -/
def idxLe (F : List (List FV)) (a b : Nat) : Prop :=
  less_than_f (fkey F b) (fkey F a) = false

instance instDecIdxLe (F : List (List FV)) : DecidableRel (idxLe F) := fun a b =>
  inferInstanceAs (Decidable (less_than_f (fkey F b) (fkey F a) = false))

instance instIsTotalIdxLe (F : List (List FV)) : IsTotal Nat (idxLe F) where
  total a b := by
    simp only [idxLe]
    cases hA : fkey F a <;> cases hB : fkey F b <;> simp [less_than_f, not_lt]
    exact le_total _ _

instance instIsTransIdxLe (F : List (List FV)) : IsTrans Nat (idxLe F) where
  trans a b c := by
    simp only [idxLe]
    cases hA : fkey F a <;> cases hB : fkey F b <;> cases hC : fkey F c <;>
      simp [less_than_f, not_lt] <;> exact fun h1 h2 => le_trans h1 h2

/-- `std::iota` of the population indices followed by
`std::sort` with comparator `less_than_f` on `F[·][0]` (sga.hpp uses this
pattern in `perform_selection`, lines 470-478, and in the reinsertion
step, lines 324-336). `std::sort` leaves the order of ties unspecified;
the embedding fixes the stable order. -/
def sortIdx (F : List (List FV)) : List Nat :=
  List.insertionSort (idxLe F) (List.range F.length)

/-- `sga_statics::selection`. -/
inductive SelKind
  | TOURNAMENT
  | TRUNCATED
deriving DecidableEq

/-- `sga_statics::crossover`. -/
inductive CrossKind
  | EXPONENTIAL
  | BINOMIAL
  | SINGLE
  | SBX
deriving DecidableEq

/-- `sga_statics::mutation`. -/
inductive MutKind
  | GAUSSIAN
  | UNIFORM
  | POLYNOMIAL
deriving DecidableEq

/-- Raw `operator<` on two doubles: a comparison involving NaN is false. -/
def fvLt : FV → FV → Bool
  | some a, some b => decide (a < b)
  | _, _ => false

/-- `operator<` on `vector_double`, i.e. `std::lexicographical_compare`
with `fvLt` (used by the tournament winner scan, sga.hpp line 497). -/
def vecLt : List FV → List FV → Bool
  | _, [] => false
  | [], _ :: _ => true
  | a :: as, b :: bs => if fvLt a b then true else if fvLt b a then false else vecLt as bs

/-- `std::swap(l[a], l[b])`, with the out-of-range reads defaulting to `0`
(the engine only swaps in-range positions). -/
def listSwap (l : List Nat) (a b : Nat) : List Nat :=
  (l.set a (l.getD b 0)).set b (l.getD a 0)

/-- One tournament of `perform_selection` (sga.hpp lines 486-501): a
partial Fisher-Yates pass moves `s` randomly drawn indices to the front
of `best`, then a linear scan keeps the index whose whole fitness vector
is minimal under `operator<` (the source stores the running winner in a
`double`; indices below `2^53` make that conversion exact, so the winner
is modelled as `Nat`).  `r t` is the raw integer draw of iteration `t`;
`uniform_int_distribution(t, n-1)` turns it into `t + r t % (n - t)`.
`fisherYates` is the partial shuffle (sga.hpp lines 489-493). -/
def fisherYates (s : Nat) (r : Nat → Nat) (best : List Nat) : List Nat :=
  (List.range s).foldl (fun b i => listSwap b (i + r i % (b.length - i)) i) best

/-- The winner scan of one tournament (sga.hpp lines 495-500): start from
the front index of the shuffled array and keep the index whose whole
fitness vector is smaller under `operator<`. -/
def tournament_winner (F : List (List FV)) (s : Nat) (best2 : List Nat) : Nat :=
  (List.range' 1 (s - 1)).foldl
    (fun w i => if vecLt (F.getD (best2.getD i 0) []) (F.getD w []) then best2.getD i 0 else w)
    (best2.getD 0 0)

def tournament_round (F : List (List FV)) (s : Nat) (r : Nat → Nat) (best : List Nat) :
    Nat × List Nat :=
  (tournament_winner F s (fisherYates s r best), fisherYates s r best)

/-- The tournament branch of `perform_selection`: one tournament per
offspring slot, the shuffled index array persisting from one slot to the
next.  `k` counts the slots still to fill and `j` the slots already
filled; tournament `j` consumes the raw draws `rand (j*s) .. rand (j*s + s - 1)`. -/
def tournament_sel (F : List (List FV)) (s : Nat) (rand : Nat → Nat) :
    Nat → Nat → List Nat → List Nat
  | 0, _, _ => []
  | k + 1, j, best =>
    let wb := tournament_round F s (fun t => rand (j * s + t)) best
    wb.1 :: tournament_sel F s rand k (j + 1) wb.2

/-- `sga::perform_selection` (sga.hpp lines 467-507).  The truncated
branch sorts all indices by `F[·][0]` under `less_than_f` and assigns
slot `i` the sorted index of rank `i % s`. -/
def perform_selection (sel : SelKind) (s : Nat) (F : List (List FV)) (rand : Nat → Nat) :
    List Nat :=
  match sel with
  | SelKind.TRUNCATED => (List.range F.length).map (fun i => (sortIdx F).getD (i % s) 0)
  | SelKind.TOURNAMENT => tournament_sel F s rand F.length 0 (List.range F.length)

/-- `sga::perform_mutation` (sga.hpp lines 577-603), transcribed as the
source stands: the only implemented case is `UNIFORM`, whose loop over
the continuous part executes its body once and then hits an unconditional
`break`, so at most coordinate `0` of each individual is overwritten —
unconditionally, without consulting the mutation probability `m` — and
the integer tail is never touched.  `rng i` is the single
`drng(m_e)` draw made for individual `i`. -/
def perform_mutation (int_dim : Nat) (mutKind : MutKind) (m : ℚ) (lb ub : List ℚ)
    (rng : Nat → ℚ) (X : List (List ℚ)) : List (List ℚ) :=
  let dim := (X.getD 0 []).length
  let dimc := dim - int_dim
  (List.range X.length).map fun i =>
    let xi := X.getD i []
    match mutKind with
    | MutKind.UNIFORM =>
      if 0 < dimc then xi.set 0 (lb.getD 0 0 + rng i * (ub.getD 0 0 - lb.getD 0 0)) else xi
    | _ => xi

/-- The clamping of an SBX child to the box (sga.hpp lines 655-658):
first raise to the lower bound, then cut at the upper bound. -/
def clampc (lo hi c : ℚ) : ℚ :=
  let c1 := if c < lo then lo else c
  if c1 > hi then hi else c1

/-- The body of the per-coordinate continuous SBX branch
(sga.hpp lines 629-665) for one coordinate with bounds `[lo, hi]`:
the parents are ordered into `y1 ≤ y2`, the two children are formed from
the `betaq` factors, clamped to the box, and a final coin decides which
child receives which value.  `std::pow` has no exact rational semantics,
so the two `betaq` values computed on lines 638-653 enter as inputs. -/
def sbx_cont_coord (lo hi p1k p2k bq1 bq2 : ℚ) (coinSwap : Bool) : ℚ × ℚ :=
  let y1 := min p1k p2k
  let y2 := max p1k p2k
  let c1 := clampc lo hi ((1 / 2) * ((y1 + y2) - bq1 * (y2 - y1)))
  let c2 := clampc lo hi ((1 / 2) * ((y1 + y2) + bq2 * (y2 - y1)))
  if coinSwap then (c1, c2) else (c2, c1)

/-- One coordinate of the continuous SBX loop including its entry gate
(sga.hpp line 628): the coordinate is processed only when the per
coordinate coin is at most `1/2`, the parents differ by more than
`1e-14` and the bounds are non-degenerate; otherwise both children keep
their parents' values. -/
def sbx_cont_step (lo hi p1k p2k bq1 bq2 coin : ℚ) (coinSwap : Bool) : ℚ × ℚ :=
  if coin ≤ 1 / 2 ∧ |p1k - p2k| > 1 / 10 ^ 14 ∧ lo ≠ hi then
    sbx_cont_coord lo hi p1k p2k bq1 bq2 coinSwap
  else (p1k, p2k)

/-- The integer-block part of `sga::sbx_crossover_impl`
(sga.hpp lines 669-695), transcribed as the source stands.  For each
`i ∈ [Dc, D)` a coin is drawn; if it is at most `cr`, two cut sites are
drawn in `[0, Di)` and ordered, and the three inner loops copy parent
genes into the children at the PLAIN indices `j ∈ [0, Di)` — the source
does not add the `Dc` offset, so the writes land on the continuous
prefix whenever `Dc > 0`.  Otherwise each child keeps its own parent's
gene at position `i`.  `coin i` is the `drng` draw for iteration `i` and
`site i` the pair of raw cut-site draws (reduced mod `Di`). -/
def two_point_int_block (Dc Di : Nat) (cr : ℚ) (p1 p2 : List ℚ)
    (coin : Nat → ℚ) (site : Nat → Nat × Nat) (c1 c2 : List ℚ) : List ℚ × List ℚ :=
  (List.range' Dc Di).foldl
    (fun cs i =>
      if coin i ≤ cr then
        let s1raw := (site i).1 % Di
        let s2raw := (site i).2 % Di
        let s1 := min s1raw s2raw
        let s2 := max s1raw s2raw
        let a1 := (List.range s1).foldl (fun c j => c.set j (p1.getD j 0)) cs.1
        let a2 := (List.range s1).foldl (fun c j => c.set j (p2.getD j 0)) cs.2
        let b1 := (List.range' s1 (s2 - s1)).foldl (fun c j => c.set j (p2.getD j 0)) a1
        let b2 := (List.range' s1 (s2 - s1)).foldl (fun c j => c.set j (p1.getD j 0)) a2
        let d1 := (List.range' s2 (Di - s2)).foldl (fun c j => c.set j (p1.getD j 0)) b1
        let d2 := (List.range' s2 (Di - s2)).foldl (fun c j => c.set j (p2.getD j 0)) b2
        (d1, d2)
      else
        (cs.1.set i (p1.getD i 0), cs.2.set i (p2.getD i 0)))
    (c1, c2)

/-- The reinsertion step of one generation of `sga::evolve`
(sga.hpp lines 322-344), transcribed as the source stands: the original
population and the evaluated offspring are each ranked by `less_than_f`
on `F[·][0]`; slot `i < elitism` receives the parent of rank `i` (vector
and cached fitness, no re-evaluation), and slot `i ∈ [elitism, NP)`
receives the offspring of rank `i` — the source indexes the sorted
offspring array by the slot position itself, not by `i - elitism`. -/
def generation_step (elitism : Nat) (PX : List (List ℚ)) (PF : List (List FV))
    (XNEW : List (List ℚ)) (FNEW : List (List FV)) :
    List (List ℚ) × List (List FV) :=
  let bp := sortIdx PF
  let bo := sortIdx FNEW
  let n := PX.length
  ((List.range n).map fun i =>
      if i < elitism then PX.getD (bp.getD i 0) [] else XNEW.getD (bo.getD i 0) [],
   (List.range n).map fun i =>
      if i < elitism then PF.getD (bp.getD i 0) [] else FNEW.getD (bo.getD i 0) [])

/-- A `pagmo::population` restricted to what the engine touches: the
ordered decision vectors and the parallel cached fitness vectors. -/
structure Pop where
  xs : List (List ℚ)
  fs : List (List FV)
deriving DecidableEq

/-- The configuration fields of `sga` that `evolve` consults. -/
structure Cfg where
  gen : Nat
  cr : ℚ
  eta_c : ℚ
  m : ℚ
  param_m : ℚ
  elitism : Nat
  param_s : Nat
  mutKind : MutKind
  sel : SelKind
  cross : CrossKind
  int_dim : Nat

/-- `gen` applications of the per-generation body. -/
def iterN (f : Pop → Pop) : Nat → Pop → Pop
  | 0, p => p
  | n + 1, p => iterN f n (f p)

/-- The preamble checks of `sga::evolve` (sga.hpp lines 258-288), in
source order, reporting the message of the first failing check. -/
def evolve_err (cfg : Cfg) (nc nf np : Nat) : Option String :=
  if nc ≠ 0 then some "constraints detected"
  else if nf ≠ 1 then some "multiple objectives detected"
  else if np < 2 then some "needs at least 2 individuals"
  else if cfg.elitism > np then some "elitism must be smaller than the population size"
  else if cfg.param_s > np then some "selection parameter must be smaller than the population size"
  else if cfg.cross = CrossKind.SBX ∧ np % 2 ≠ 0 then some "population size must be even for sbx"
  else none

/-- `sga::evolve` up to the generation loop (sga.hpp lines 248-347): the
preamble validates the problem/population before anything is touched,
`gen = 0` returns the input unchanged, and otherwise the per-generation
body — selection, crossover, mutation, evaluation and reinsertion,
abstracted here as `step` — runs `gen` times.  `nc` and `nf` are the
problem's constraint and objective counts. -/
def evolve (cfg : Cfg) (nc nf : Nat) (step : Pop → Pop) (pop : Pop) : Except String Pop :=
  match evolve_err cfg nc nf pop.xs.length with
  | some e => Except.error e
  | none => if cfg.gen = 0 then Except.ok pop else Except.ok (iterN step cfg.gen pop)

/-- The parameter checks of the `sga` constructor (sga.hpp lines
185-232), in source order; `true` means the constructor throws
`std::invalid_argument`.  Note the first check rejects only `cr > 1` or
`cr < 0`. -/
def sga_ctor_check (cr eta_c m param_m : ℚ) (param_s : Nat)
    (mutation selection crossover : String) : Bool :=
  (cr > 1 || cr < 0)
  || (eta_c < 1 || eta_c ≥ 100)
  || (m < 0 || m > 1)
  || (param_s == 0)
  || (mutation ≠ "gaussian" && mutation ≠ "uniform" && mutation ≠ "polynomial")
  || (selection ≠ "truncated" && selection ≠ "tournament")
  || (crossover ≠ "exponential" && crossover ≠ "binomial" && crossover ≠ "sbx"
      && crossover ≠ "single")
  || (mutation == "polynomial" && (param_m < 1 || param_m > 100))
  || (mutation ≠ "polynomial" && (param_m < 0 || param_m > 1))

/-! Helper lemmas. -/

theorem foldl_inv {α β : Type} (P : β → Prop) (f : β → α → β) :
    ∀ (l : List α) (b : β), P b → (∀ b a, P b → P (f b a)) → P (l.foldl f b) := by
  intro l
  induction l with
  | nil => intro b hb _; simpa using hb
  | cons x xs ih =>
    intro b hb hf
    simp only [List.foldl_cons]
    exact ih (f b x) (hf b x hb) hf

theorem getD_lt_of_forall {l : List Nat} {N : Nat} (hN : 0 < N)
    (h : ∀ z ∈ l, z < N) (i : Nat) : l.getD i 0 < N := by
  rw [List.getD_eq_getElem?_getD]
  rcases lt_or_le i l.length with hi | hi
  · rw [List.getElem?_eq_getElem hi]
    exact h _ (List.getElem_mem hi)
  · rw [List.getElem?_eq_none hi]
    simpa using hN

theorem listSwap_length (l : List Nat) (a b : Nat) : (listSwap l a b).length = l.length := by
  simp [listSwap]

theorem listSwap_bounded {l : List Nat} {N : Nat} (hN : 0 < N)
    (h : ∀ z ∈ l, z < N) (a b : Nat) : ∀ z ∈ listSwap l a b, z < N := by
  intro z hz
  rcases List.mem_or_eq_of_mem_set hz with hz1 | rfl
  · rcases List.mem_or_eq_of_mem_set hz1 with hz2 | rfl
    · exact h _ hz2
    · exact getD_lt_of_forall hN h b
  · exact getD_lt_of_forall hN h a

theorem fisherYates_inv {N : Nat} (s : Nat) (r : Nat → Nat) {best : List Nat}
    (hN : 0 < N) (hlen : best.length = N) (hb : ∀ z ∈ best, z < N) :
    (fisherYates s r best).length = N ∧ ∀ z ∈ fisherYates s r best, z < N := by
  refine foldl_inv (fun b => b.length = N ∧ ∀ z ∈ b, z < N) _ _ best ⟨hlen, hb⟩ ?_
  intro b i hbi
  exact ⟨(listSwap_length _ _ _).trans hbi.1, listSwap_bounded hN hbi.2 _ _⟩

theorem tournament_winner_lt (F : List (List FV)) (s : Nat) {best2 : List Nat} {N : Nat}
    (hN : 0 < N) (hb : ∀ z ∈ best2, z < N) : tournament_winner F s best2 < N := by
  refine foldl_inv (fun w => w < N) _ _ _ (getD_lt_of_forall hN hb 0) ?_
  intro w i hw
  dsimp only
  split
  · exact getD_lt_of_forall hN hb i
  · exact hw

theorem tournament_sel_bounds (F : List (List FV)) (s : Nat) (rand : Nat → Nat) {N : Nat}
    (hN : 0 < N) :
    ∀ (k j : Nat) (best : List Nat), best.length = N → (∀ z ∈ best, z < N) →
      (tournament_sel F s rand k j best).length = k
        ∧ ∀ x ∈ tournament_sel F s rand k j best, x < N := by
  intro k
  induction k with
  | zero => intro j best _ _; simp [tournament_sel]
  | succ k ih =>
    intro j best hlen hb
    have hfy := fisherYates_inv s (fun t => rand (j * s + t)) hN hlen hb
    have hrec := ih (j + 1) (fisherYates s (fun t => rand (j * s + t)) best) hfy.1 hfy.2
    constructor
    · simp [tournament_sel, tournament_round, hrec.1]
    · intro x hx
      simp only [tournament_sel, tournament_round] at hx
      rcases List.mem_cons.mp hx with rfl | hx
      · exact tournament_winner_lt F s hN hfy.2
      · exact hrec.2 x hx

/-! Claim theorems. -/

/-- C1: the claim states that in the reinsertion step the output slot
`i ∈ [elitism, NP)` receives the offspring of rank `i - elitism`, never
omitting the best offspring.  The code (sga.hpp line 343) indexes the
sorted-offspring array by the slot position `i` itself, dropping the
`elitism` best offspring — contradicting the class documentation
(sga.hpp line 139, "the worst elitism offsprings are killed").  Concrete
run: `NP = 3`, `elitism = 1`, offspring fitness `[2, 0, 1]`, so the
offspring ranking is `[1, 2, 0]` and the best offspring is `XNEW[1] = [11]`;
the code outputs slots `[[0], [12], [10]]`, omitting `[11]`, where the
claim demands slot 1 to hold `[11]`. -/
theorem reinsertion_rank_shift_demo :
    sortIdx [[some (2 : ℚ)], [some 0], [some 1]] = [1, 2, 0]
    ∧ (generation_step 1 [[(0 : ℚ)], [1], [2]] [[some (0 : ℚ)], [some 1], [some 2]]
        [[(10 : ℚ)], [11], [12]] [[some (2 : ℚ)], [some 0], [some 1]]).1
      = [[0], [12], [10]]
    ∧ [(11 : ℚ)] ∉ (generation_step 1 [[(0 : ℚ)], [1], [2]]
        [[some (0 : ℚ)], [some 1], [some 2]] [[(10 : ℚ)], [11], [12]]
        [[some (2 : ℚ)], [some 0], [some 1]]).1 := by
  decide

/-- C2: the claim states that UNIFORM mutation resamples every continuous
coordinate independently with probability `m` and also mutates the
integer tail.  The code (sga.hpp lines 594-600) overwrites only
coordinate `0` of each individual, unconditionally — the loop body ends
in `break` and never consults `m` — and has no integer-tail loop.
Concrete run: `dim = 3`, `int_dim = 1`, `m = 0` (so the claim demands
that nothing be mutated), draw `1/2`: the code still overwrites
coordinate `0` of both individuals with `lb + 1/2 (ub - lb) = 1/2`,
while coordinates `1` and `2` come out unchanged for this draw and also
for the distinct draw `1/3`. -/
theorem uniform_mutation_first_coord_demo :
    perform_mutation 1 MutKind.UNIFORM 0 [0, 0, 0] [1, 1, 1] (fun _ => 1 / 2)
        [[0, 0, 0], [0, 0, 0]]
      = [[1 / 2, 0, 0], [1 / 2, 0, 0]]
    ∧ perform_mutation 1 MutKind.UNIFORM 0 [0, 0, 0] [1, 1, 1] (fun _ => 1 / 3)
        [[0, 0, 0], [0, 0, 0]]
      = [[1 / 3, 0, 0], [1 / 3, 0, 0]] := by
  constructor <;> · norm_num [perform_mutation, List.range_succ]

/-- C3: the claim states that the integer-block two-point crossover of
`sbx_crossover_impl` swaps only the middle segment
`[Dc + site1, Dc + site2)` of the trailing integer block and leaves the
continuous prefix alone.  The code (sga.hpp lines 679-690) writes at the
unshifted indices `j ∈ [0, Di)` — contradicting its own comment
("applies it to the integer part of the chromosome").  Concrete run:
`D = 3`, `Dc = 1`, `Di = 2`, parents `[0, 10, 20]` and `[1, 11, 21]`,
cut sites `(0, 1)` accepted at `i = Dc` and the coin rejected at
`i = Dc + 1`: the code returns `([1, 10, 20], [0, 11, 21])`, i.e. it
swapped the continuous coordinate `0` and left the integer block
unchanged, where the claim demands `([0, 11, 20], [1, 10, 21])`. -/
theorem sbx_int_block_demo :
    two_point_int_block 1 2 1 [0, 10, 20] [1, 11, 21]
        (fun i => if i = 1 then 1 / 2 else 2) (fun _ => (0, 1)) [0, 10, 20] [1, 11, 21]
      = ([1, 10, 20], [0, 11, 21]) := by
  norm_num [two_point_int_block, List.range'_succ, List.range_succ]

/-- C4: the claim states that construction fails for every `cr ≥ 1`,
including `cr = 1` exactly, matching the constructor's own documentation
(`cr` not in `[0,1)` throws, sga.hpp line 173).  The code's guard
(sga.hpp line 185) tests `cr > 1 || cr < 0`, so `cr = 1` is accepted;
any `cr` strictly above `1` is still rejected. -/
theorem ctor_check_accepts_cr_one :
    sga_ctor_check 1 10 0 1 5 "gaussian" "tournament" "exponential" = false
    ∧ sga_ctor_check 2 10 0 1 5 "gaussian" "tournament" "exponential" = true := by
  decide

/-- C5: `evolve` raises `InvalidArgument` exactly when the problem or
population is incompatible — constraints present (`nc ≠ 0`), more than
one objective (`nf ≠ 1`), `NP < 2`, `elitism > NP`, `param_s > NP`, or
SBX crossover with an odd population — and an error, when raised, is
produced before the per-generation body runs, so neither the population
nor any engine state is touched: the error is the same for every
instantiation of the generation body `step`. -/
theorem evolve_error_iff (cfg : Cfg) (nc nf : Nat) (pop : Pop) :
    (∃ e, ∀ step : Pop → Pop, evolve cfg nc nf step pop = Except.error e)
      ↔ (nc ≠ 0 ∨ nf ≠ 1 ∨ pop.xs.length < 2 ∨ cfg.elitism > pop.xs.length
          ∨ cfg.param_s > pop.xs.length
          ∨ (cfg.cross = CrossKind.SBX ∧ pop.xs.length % 2 ≠ 0)) := by
  have key : (evolve_err cfg nc nf pop.xs.length).isSome = true ↔
      (nc ≠ 0 ∨ nf ≠ 1 ∨ pop.xs.length < 2 ∨ cfg.elitism > pop.xs.length
        ∨ cfg.param_s > pop.xs.length
        ∨ (cfg.cross = CrossKind.SBX ∧ pop.xs.length % 2 ≠ 0)) := by
    unfold evolve_err
    split_ifs with h1 h2 h3 h4 h5 h6 <;> simp_all
  constructor
  · rintro ⟨e, h⟩
    have h0 := h id
    rw [← key]
    unfold evolve at h0
    cases he : evolve_err cfg nc nf pop.xs.length with
    | some e2 => simp [he]
    | none =>
      rw [he] at h0
      by_cases hg : cfg.gen = 0
      · rw [if_pos hg] at h0
        exact absurd h0 (by simp)
      · rw [if_neg hg] at h0
        exact absurd h0 (by simp)
  · intro hcond
    have hs := key.mpr hcond
    cases he : evolve_err cfg nc nf pop.xs.length with
    | none => rw [he] at hs; simp at hs
    | some e =>
      refine ⟨e, fun step => ?_⟩
      unfold evolve
      rw [he]

/-- C5 witness: with SBX crossover and an odd population of size 3,
`evolve` fails with the same error whatever the generation body is. -/
theorem evolve_error_iff_witness :
    ∃ e, ∀ step : Pop → Pop,
      evolve ⟨1, 0, 10, 0, 1, 1, 1, MutKind.GAUSSIAN, SelKind.TOURNAMENT, CrossKind.SBX, 0⟩
        0 1 step ⟨[[0], [1], [2]], [[some 0], [some 1], [some 2]]⟩ = Except.error e :=
  (evolve_error_iff _ 0 1 _).mpr (by decide)

/-- C6: for every configuration and population passing the entry
validation, `evolve` with `gen = 0` returns the input population
unchanged — decision vectors and cached fitness, in the same order —
whatever the per-generation body would have done. -/
theorem evolve_gen_zero_id (cfg : Cfg) (nc nf : Nat) (step : Pop → Pop) (pop : Pop)
    (hg : cfg.gen = 0) (h1 : nc = 0) (h2 : nf = 1) (h3 : 2 ≤ pop.xs.length)
    (h4 : cfg.elitism ≤ pop.xs.length) (h5 : cfg.param_s ≤ pop.xs.length)
    (h6 : cfg.cross = CrossKind.SBX → pop.xs.length % 2 = 0) :
    evolve cfg nc nf step pop = Except.ok pop := by
  have he : evolve_err cfg nc nf pop.xs.length = none := by
    unfold evolve_err
    split_ifs with a1 a2 a3 a4 a5 a6
    · exact absurd h1 a1
    · exact absurd h2 a2
    · exact absurd h3 a3.not_le
    · exact absurd h4 a4.not_le
    · exact absurd h5 a5.not_le
    · exact absurd (h6 a6.1) a6.2
    · rfl
  unfold evolve
  rw [he]
  simp [hg]

/-- C6 witness: a concrete valid two-individual population goes through
`evolve` with `gen = 0` unchanged. -/
theorem evolve_gen_zero_id_witness :
    evolve ⟨0, 0, 10, 0, 1, 1, 1, MutKind.GAUSSIAN, SelKind.TOURNAMENT, CrossKind.EXPONENTIAL, 0⟩
        0 1 (fun p => p) ⟨[[0], [1]], [[some 0], [some 1]]⟩
      = Except.ok ⟨[[0], [1]], [[some 0], [some 1]]⟩ :=
  evolve_gen_zero_id _ 0 1 _ _ rfl rfl rfl (by decide) (by decide) (by decide) (by decide)

/-- C7: with TRUNCATED selection and `1 ≤ param_s ≤ NP`, slot `i` of the
output receives the sorted index of rank `i % param_s`, where the
ranking is the ascending sort of all population indices by `F[·][0]`
under `less_than_f` (a permutation of `0..NP-1`, sorted for the
comparator); and with `param_s = NP` the output is exactly that full
sorted permutation. -/
theorem truncated_selection_spec (F : List (List FV)) (s : Nat) (rand : Nat → Nat)
    (hs1 : 1 ≤ s) (hsN : s ≤ F.length) :
    (∀ i, i < F.length →
        (perform_selection SelKind.TRUNCATED s F rand).getD i 0
          = (sortIdx F).getD (i % s) 0)
      ∧ (sortIdx F).Perm (List.range F.length)
      ∧ List.Sorted (idxLe F) (sortIdx F)
      ∧ (s = F.length → perform_selection SelKind.TRUNCATED s F rand = sortIdx F) := by
  refine ⟨?_, List.perm_insertionSort _ _, List.sorted_insertionSort _ _, ?_⟩
  · intro i hi
    simp [perform_selection, List.getD_eq_getElem?_getD, List.getElem?_map,
      List.getElem?_range hi]
  · intro hs
    subst hs
    have hlen : (sortIdx F).length = F.length := by
      simp [sortIdx, List.length_insertionSort]
    apply List.ext_getElem
    · simp [perform_selection, hlen]
    · intro i h1 h2
      have hi : i < F.length := by simpa [perform_selection] using h1
      simp [perform_selection, List.getElem_map, List.getElem_range,
        Nat.mod_eq_of_lt hi, List.getD_eq_getElem?_getD, List.getElem?_eq_getElem h2]

/-- C7 witness: fitness `[3, 1, 2]` with `param_s = NP = 3`: the sorted
ranking is a permutation of all indices and truncated selection returns
exactly it. -/
theorem truncated_selection_spec_witness :
    (sortIdx [[some (3 : ℚ)], [some 1], [some 2]]).Perm (List.range 3)
      ∧ perform_selection SelKind.TRUNCATED 3 [[some (3 : ℚ)], [some 1], [some 2]]
          (fun _ => 0)
        = sortIdx [[some (3 : ℚ)], [some 1], [some 2]] := by
  have h := truncated_selection_spec [[some (3 : ℚ)], [some 1], [some 2]] 3 (fun _ => 0)
    (by decide) (by decide)
  exact ⟨h.2.1, h.2.2.2 rfl⟩

/-- C8: after one generation, the slots `[0, elitism)` of the output hold
the `elitism` best-ranked individuals of the pre-generation population —
slot `i` holds the decision vector and the cached fitness of the parent
of rank `i` under the `less_than_f` ranking (a sorted permutation of all
parent indices), with no re-evaluation; in particular an elite parent is
never displaced by any offspring, however the offspring rank. -/
theorem elitism_slots_keep_best_parents (e : Nat) (PX XNEW : List (List ℚ))
    (PF FNEW : List (List FV)) (i : Nat) (hie : i < e) (hin : i < PX.length) :
    ((generation_step e PX PF XNEW FNEW).1.getD i [] = PX.getD ((sortIdx PF).getD i 0) []
      ∧ (generation_step e PX PF XNEW FNEW).2.getD i []
        = PF.getD ((sortIdx PF).getD i 0) [])
    ∧ (sortIdx PF).Perm (List.range PF.length)
    ∧ List.Sorted (idxLe PF) (sortIdx PF) := by
  refine ⟨⟨?_, ?_⟩, List.perm_insertionSort _ _, List.sorted_insertionSort _ _⟩
  · simp [generation_step, List.getD_eq_getElem?_getD, List.getElem?_map,
      List.getElem?_range hin, hie]
  · simp [generation_step, List.getD_eq_getElem?_getD, List.getElem?_map,
      List.getElem?_range hin, hie]

/-- C8 witness: with `elitism = 1` and parent fitness `[1, 0]`, output
slot 0 holds the rank-0 parent (index 1). -/
theorem elitism_slots_keep_best_parents_witness :
    (generation_step 1 [[(5 : ℚ)], [6]] [[some (1 : ℚ)], [some 0]] [[(7 : ℚ)], [8]]
        [[some (9 : ℚ)], [some 3]]).1.getD 0 []
      = [[(5 : ℚ)], [6]].getD ((sortIdx [[some (1 : ℚ)], [some 0]]).getD 0 0) [] :=
  (elitism_slots_keep_best_parents 1 [[5], [6]] [[7], [8]] [[some 1], [some 0]]
      [[some 9], [some 3]] 0 (by decide) (by decide)).1.1

/-- C9: the continuous SBX coordinate step, on a coordinate where the
branch fires (inner coin at most `1/2`, parents more than `1e-14` apart,
non-degenerate bounds) with symmetric `betaq` factors and no boundary
clamping, produces two children whose values at that coordinate lie
within `[lb, ub]` and whose sum equals the parents' sum exactly (the
embedding computes over `ℚ`, so the floating tolerance of the claim
sharpens to equality). -/
theorem sbx_cont_sum_and_bounds (lo hi p1k p2k bq coin : ℚ) (cs : Bool)
    (hlu : lo ≤ hi)
    (hcoin : coin ≤ 1 / 2)
    (hdiff : |p1k - p2k| > 1 / 10 ^ 14)
    (hneq : lo ≠ hi)
    (hc1lo : lo ≤ 1 / 2 * ((min p1k p2k + max p1k p2k) - bq * (max p1k p2k - min p1k p2k)))
    (hc1hi : 1 / 2 * ((min p1k p2k + max p1k p2k) - bq * (max p1k p2k - min p1k p2k)) ≤ hi)
    (hc2lo : lo ≤ 1 / 2 * ((min p1k p2k + max p1k p2k) + bq * (max p1k p2k - min p1k p2k)))
    (hc2hi : 1 / 2 * ((min p1k p2k + max p1k p2k) + bq * (max p1k p2k - min p1k p2k)) ≤ hi) :
    (lo ≤ (sbx_cont_step lo hi p1k p2k bq bq coin cs).1
        ∧ (sbx_cont_step lo hi p1k p2k bq bq coin cs).1 ≤ hi)
      ∧ (lo ≤ (sbx_cont_step lo hi p1k p2k bq bq coin cs).2
        ∧ (sbx_cont_step lo hi p1k p2k bq bq coin cs).2 ≤ hi)
      ∧ (sbx_cont_step lo hi p1k p2k bq bq coin cs).1
          + (sbx_cont_step lo hi p1k p2k bq bq coin cs).2
        = p1k + p2k := by
  have hgate : coin ≤ 1 / 2 ∧ |p1k - p2k| > 1 / 10 ^ 14 ∧ lo ≠ hi := ⟨hcoin, hdiff, hneq⟩
  have e1 : clampc lo hi
      (1 / 2 * ((min p1k p2k + max p1k p2k) - bq * (max p1k p2k - min p1k p2k)))
      = 1 / 2 * ((min p1k p2k + max p1k p2k) - bq * (max p1k p2k - min p1k p2k)) := by
    unfold clampc
    rw [if_neg (not_lt.mpr hc1lo), if_neg (not_lt.mpr hc1hi)]
  have e2 : clampc lo hi
      (1 / 2 * ((min p1k p2k + max p1k p2k) + bq * (max p1k p2k - min p1k p2k)))
      = 1 / 2 * ((min p1k p2k + max p1k p2k) + bq * (max p1k p2k - min p1k p2k)) := by
    unfold clampc
    rw [if_neg (not_lt.mpr hc2lo), if_neg (not_lt.mpr hc2hi)]
  have hsum : min p1k p2k + max p1k p2k = p1k + p2k := min_add_max p1k p2k
  unfold sbx_cont_step
  rw [if_pos hgate]
  unfold sbx_cont_coord
  cases cs <;> simp only [Bool.false_eq_true, ite_true, ite_false] <;>
    rw [e1, e2] <;>
    refine ⟨⟨?_, ?_⟩, ⟨?_, ?_⟩, ?_⟩ <;> first
      | assumption
      | linarith [hsum]

/-- C9 witness: bounds `[0, 10]`, parents `4` and `2`, `betaq = 1`: the
children are `2` and `4`, inside the box, and their sum is the parents'
sum. -/
theorem sbx_cont_sum_and_bounds_witness :
    ((0 : ℚ) ≤ (sbx_cont_step 0 10 4 2 1 1 0 true).1
        ∧ (sbx_cont_step 0 10 4 2 1 1 0 true).1 ≤ 10)
      ∧ ((0 : ℚ) ≤ (sbx_cont_step 0 10 4 2 1 1 0 true).2
        ∧ (sbx_cont_step 0 10 4 2 1 1 0 true).2 ≤ 10)
      ∧ (sbx_cont_step 0 10 4 2 1 1 0 true).1 + (sbx_cont_step 0 10 4 2 1 1 0 true).2
        = 4 + 2 :=
  sbx_cont_sum_and_bounds 0 10 4 2 1 0 true (by norm_num) (by norm_num)
    (by norm_num) (by norm_num) (by norm_num [min_def, max_def])
    (by norm_num [min_def, max_def]) (by norm_num [min_def, max_def])
    (by norm_num [min_def, max_def])

/-- C10: for both selection kinds and any fitness list (NaN entries
included), `perform_selection` with `1 ≤ param_s ≤ NP` returns exactly
`NP` entries, each a valid population index below `NP`, whatever the
random draws are. -/
theorem selection_output_valid (sel : SelKind) (s : Nat) (F : List (List FV))
    (rand : Nat → Nat) (hs1 : 1 ≤ s) (hsN : s ≤ F.length) :
    (perform_selection sel s F rand).length = F.length
      ∧ ∀ x ∈ perform_selection sel s F rand, x < F.length := by
  have hN : 0 < F.length := lt_of_lt_of_le hs1 hsN
  cases sel with
  | TRUNCATED =>
    constructor
    · simp [perform_selection]
    · intro x hx
      simp only [perform_selection, List.mem_map, List.mem_range] at hx
      obtain ⟨i, hi, rfl⟩ := hx
      have hso : ∀ z ∈ sortIdx F, z < F.length := by
        intro z hz
        simpa [sortIdx] using hz
      exact getD_lt_of_forall hN hso _
  | TOURNAMENT =>
    exact tournament_sel_bounds F s rand hN F.length 0 (List.range F.length)
      (List.length_range _) (by intro z hz; simpa using hz)

/-- C10 witness: a tournament run of size 2 over three individuals
returns three valid indices. -/
theorem selection_output_valid_witness :
    (perform_selection SelKind.TOURNAMENT 2 [[some (3 : ℚ)], [some 1], [some 2]]
        (fun _ => 0)).length = 3
      ∧ ∀ x ∈ perform_selection SelKind.TOURNAMENT 2 [[some (3 : ℚ)], [some 1], [some 2]]
          (fun _ => 0), x < 3 :=
  selection_output_valid SelKind.TOURNAMENT 2 [[some 3], [some 1], [some 2]] (fun _ => 0)
    (by decide) (by decide)

end SgaSpec
